import Mathlib

/-!
Formal model of the cdx session-registry CLI (src/bin/cdx.js).

JavaScript strings are modelled as lists of characters (`JStr`); the
filesystem effects of each function are made explicit (file contents are
`Option JStr`, `none` meaning the file is absent).  Every definition below
is a direct transcription of the correspondingly named function of
src/bin/cdx.js.
-/

/-- Model of a JavaScript string as a list of characters. -/
abbrev JStr := List Char

/-- Characters removed by the JavaScript String.prototype.trim method:
ASCII whitespace, NBSP, the Unicode space separators, the line and
paragraph separators and the BOM. -/
def jsWhitespace (c : Char) : Bool :=
  decide (c.toNat ∈ [0x09, 0x0a, 0x0b, 0x0c, 0x0d, 0x20, 0xa0, 0x1680,
    0x2000, 0x2001, 0x2002, 0x2003, 0x2004, 0x2005, 0x2006, 0x2007,
    0x2008, 0x2009, 0x200a, 0x2028, 0x2029, 0x202f, 0x205f, 0x3000, 0xfeff])

/-- Model of JavaScript String.prototype.trim: drop leading and trailing
whitespace. -/
def jsTrim (s : JStr) : JStr :=
  ((s.dropWhile jsWhitespace).reverse.dropWhile jsWhitespace).reverse

/-- Model of JavaScript String.prototype.split with separator "\n":
splitting the empty string yields one empty piece. -/
def jsSplitNl : JStr → List JStr
  | [] => [[]]
  | c :: rest =>
    if c = '\n' then [] :: jsSplitNl rest
    else
      match jsSplitNl rest with
      | [] => [[c]]
      | l :: ls => (c :: l) :: ls

/-- A registry entry, one line of the .cdx file (src/bin/cdx.js line 50). -/
structure Entry where
  uuid : JStr
  label : JStr
deriving DecidableEq, Repr

/-- Model of line.indexOf applied to the tab character: position of the
first tab, or none (JavaScript returns -1) when there is no tab. -/
def indexOfTab : JStr → Option Nat
  | [] => none
  | c :: rest =>
    if c = '\t' then some 0
    else (indexOfTab rest).map (fun i => i + 1)

/-- Parse one already-trimmed registry line (the per-line body of
loadEntries, src/bin/cdx.js lines 44-51): find the first tab, trim the
part before it (uuid) and the part after it (label), and reject the line
when there is no tab or either field trims to empty. -/
def parseLine (line : JStr) : Option Entry :=
  match indexOfTab line with
  | none => none
  | some tabIndex =>
    let uuid := jsTrim (line.take tabIndex)
    let label := jsTrim (line.drop (tabIndex + 1))
    if uuid = [] ∨ label = [] then none
    else some { uuid := uuid, label := label }

/-- Model of loadEntries applied to file text (src/bin/cdx.js lines 40-52):
split on newlines, trim each line, drop empty lines, parse the remaining
lines and drop those that fail to parse. -/
def loadEntriesText (content : JStr) : List Entry :=
  (((jsSplitNl content).map jsTrim).filter (fun l => !l.isEmpty)).filterMap parseLine

/-- The serialized line of one entry: uuid, tab, label. -/
def entryLine (e : Entry) : JStr :=
  e.uuid ++ '\t' :: e.label

/-- Text written by the non-empty branch of writeEntries
(src/bin/cdx.js line 72): join the entry lines with newlines and append a
final newline. -/
def writeEntriesText (entries : List Entry) : JStr :=
  List.intercalate ['\n'] (entries.map entryLine) ++ ['\n']

/-- Character class of the regex in sanitizeLabel: tab, newline,
carriage return. -/
def tnr (c : Char) : Bool :=
  c == '\t' || c == '\n' || c == '\r'

/-- Replace every maximal run of tab/newline/carriage-return characters by
one space (the replace step of sanitizeLabel); the boolean argument records
whether the previous character belonged to such a run. -/
def collapseTnr : Bool → JStr → JStr
  | _, [] => []
  | inRun, c :: rest =>
    if tnr c then
      if inRun then collapseTnr true rest
      else ' ' :: collapseTnr true rest
    else c :: collapseTnr false rest

/-- Model of sanitizeLabel (src/bin/cdx.js lines 55-57): collapse runs of
tab/newline/carriage-return to single spaces, then trim. -/
def sanitizeLabel (label : JStr) : JStr :=
  jsTrim (collapseTnr false label)

/-- Per-line processing of loadEntries seen as one function: trim the
line, drop it when empty, otherwise parse it. -/
def lineToEntry (l : JStr) : Option Entry :=
  if (jsTrim l).isEmpty then none else parseLine (jsTrim l)

/-- A codec-stable field: nonempty, free of tab and newline characters and
unchanged by trimming. -/
def goodField (s : JStr) : Prop :=
  s ≠ [] ∧ (∀ c ∈ s, c ≠ '\t' ∧ c ≠ '\n') ∧ jsTrim s = s

instance (s : JStr) : Decidable (goodField s) := by
  unfold goodField
  infer_instance

/-- Model of findCdxFile (src/bin/cdx.js lines 23-35).  A directory is the
list of its path components, innermost first; the parent of c :: rest is
rest, and the filesystem root is [], whose parent is itself (the source
stops when path.dirname returns its argument unchanged).  hasCdx d says
whether directory d contains a .cdx file. -/
def findCdxFile (hasCdx : List String → Bool) : List String → Option (List String)
  | [] => if hasCdx [] then some [] else none
  | c :: parent =>
    if hasCdx (c :: parent) then some (c :: parent)
    else findCdxFile hasCdx parent

/-- Model of loadEntries (src/bin/cdx.js lines 37-53) including its guard:
filePath is none when the caller passes null or undefined; cdxFile gives
the content of the .cdx file of a directory, none when that file does not
exist.  A null path or a missing file yields the empty entry list. -/
def loadEntries (cdxFile : List String → Option JStr) (filePath : Option (List String)) :
    List Entry :=
  match filePath with
  | none => []
  | some p =>
    match cdxFile p with
    | none => []
    | some content => loadEntriesText content

/-- Resolution prefix of runDefault (src/bin/cdx.js lines 254-258): when
the here option is set, found is null and the walk-up is skipped; the
entries are loaded from found?.filePath, which is undefined when found is
null.  Returns the found directory and the loaded entries. -/
def runDefaultResolve (here : Bool) (cdxFile : List String → Option JStr)
    (startDir : List String) : Option (List String) × List Entry :=
  let found := if here then none else findCdxFile (fun d => (cdxFile d).isSome) startDir
  (found, loadEntries cdxFile found)

/-- Filesystem effect of writeEntries (src/bin/cdx.js lines 65-74) on the
content of the target file (old is the previous content): an empty entry
list deletes the file, whether or not it existed, and a non-empty one
overwrites it wholesale with the serialized text. -/
def writeEntriesFs (entries : List Entry) (_old : Option JStr) : Option JStr :=
  if entries.isEmpty then none
  else some (writeEntriesText entries)

/-- Final step of runRemove (src/bin/cdx.js lines 354-355): keep the
entries whose uuid differs from the selected one and write the rest back. -/
def runRemoveWrite (entries : List Entry) (selectedUuid : JStr) (old : Option JStr) :
    Option JStr :=
  writeEntriesFs (entries.filter (fun e => e.uuid != selectedUuid)) old

/-- Filesystem effect of appendEntry (src/bin/cdx.js lines 59-63): append
uuid, tab, label and a newline to the file, creating it when absent. -/
def appendEntryFs (e : Entry) (old : Option JStr) : Option JStr :=
  some (old.getD [] ++ entryLine e ++ ['\n'])

/-- Hex digit as accepted by the case-insensitive UUID regex of
extractIdFromFilename. -/
def isHexDigit (c : Char) : Bool :=
  (decide ('0' ≤ c) && decide (c ≤ '9')) ||
  (decide ('a' ≤ c) && decide (c ≤ 'f')) ||
  (decide ('A' ≤ c) && decide (c ≤ 'F'))

/-- Shape of the 36-character UUID group of the regex: hyphens at indices
8, 13, 18 and 23, hex digits everywhere else. -/
def uuidShape (l : JStr) : Bool :=
  l.length == 36 &&
  (List.range 36).all (fun i =>
    match l.get? i with
    | none => false
    | some c =>
      if i == 8 || i == 13 || i == 18 || i == 23 then c == '-'
      else isHexDigit c)

/-- ASCII lower-casing, modelling the case-insensitive regex flag on the
.jsonl extension. -/
def lcChar (c : Char) : Char :=
  if 'A' ≤ c ∧ c ≤ 'Z' then Char.ofNat (c.toNat + 32) else c

/-- Model of extractIdFromFilename (src/bin/cdx.js lines 90-95): the
anchored fixed-length regex matches exactly when the path ends with a
36-character UUID group followed by the .jsonl extension (the match being
case-insensitive); the captured group is returned. -/
def extractIdFromFilename (p : JStr) : Option JStr :=
  if 42 ≤ p.length
     ∧ (p.drop (p.length - 6)).map lcChar = ".jsonl".toList
     ∧ uuidShape ((p.drop (p.length - 42)).take 36)
  then some ((p.drop (p.length - 42)).take 36)
  else none

/-- A session artifact file as seen by discovery: its path, modification
time, and the payload.id field of its first line when that line parses as
a JSON record of type session_meta (none when the first line is missing,
malformed or of another type — the catch and fall-through branches of
readSessionIdFromFile). -/
structure SessionFile where
  path : JStr
  mtimeMs : Nat
  metaId : Option JStr
deriving DecidableEq, Repr

/-- Model of readSessionIdFromFile (src/bin/cdx.js lines 97-109): return
the embedded session_meta payload id when present and truthy, otherwise
fall back to the UUID embedded in the filename. -/
def readSessionIdFromFile (f : SessionFile) : Option JStr :=
  match f.metaId with
  | some s => if s.isEmpty then extractIdFromFilename f.path else some s
  | none => extractIdFromFilename f.path

/-- A session snapshot (src/bin/cdx.js line 119). -/
structure SessionSnapshot where
  id : Option JStr
  mtimeMs : Nat
  path : JStr
deriving DecidableEq, Repr

/-- The file picked at src/bin/cdx.js lines 115-116: sorting by ascending
mtimeMs with a stable sort and taking the last element selects the
last-listed file among those of maximal modification time, which this
one-pass fold computes directly. -/
def latestFile : List SessionFile → Option SessionFile
  | [] => none
  | f :: rest =>
    match latestFile rest with
    | none => some f
    | some g => some (if g.mtimeMs < f.mtimeMs then f else g)

/-- Model of getLatestSessionSnapshot (src/bin/cdx.js lines 111-120) on
the list of session files collected under the sessions directory. -/
def getLatestSessionSnapshot (files : List SessionFile) : Option SessionSnapshot :=
  match latestFile files with
  | none => none
  | some f => some { id := readSessionIdFromFile f, mtimeMs := f.mtimeMs, path := f.path }

/-- One line of history.jsonl as seen by the history scanners: some s when
the line parses as JSON carrying a session_id string s, none when the line
is malformed or has no session_id field. -/
abbrev HistoryLine := Option JStr

/-- Backward scan of getLastHistorySessionId, on the reversed line list:
first record with a truthy session_id. -/
def lastIdScan : List HistoryLine → Option JStr
  | [] => none
  | line :: rest =>
    match line with
    | some s => if s.isEmpty then lastIdScan rest else some s
    | none => lastIdScan rest

/-- Model of getLastHistorySessionId (src/bin/cdx.js lines 122-135): scan
the history lines from the end backward and return the first truthy
session_id found; a missing history file behaves as the empty line list. -/
def getLastHistorySessionId (history : List HistoryLine) : Option JStr :=
  lastIdScan history.reverse

/-- Backward scan of getNewestHistorySessionIdSince, on the reversed line
list: first record with a truthy session_id that differs from previousId. -/
def newIdScan (previousId : JStr) : List HistoryLine → Option JStr
  | [] => none
  | line :: rest =>
    match line with
    | some s =>
      if !s.isEmpty && s != previousId then some s else newIdScan previousId rest
    | none => newIdScan previousId rest

/-- Model of getNewestHistorySessionIdSince (src/bin/cdx.js lines 137-152). -/
def getNewestHistorySessionIdSince (previousId : JStr) (history : List HistoryLine) :
    Option JStr :=
  newIdScan previousId history.reverse

/-- Truthiness of an optional JavaScript string: present and non-empty. -/
def truthy : Option JStr → Bool
  | none => false
  | some s => !s.isEmpty

/-- Fallback arm of reconciliation (src/bin/cdx.js lines 283-285): when
the pre-run history id is truthy, scan the history for the newest id that
differs from it; otherwise no id. -/
def historyFallback (previousHistoryId : Option JStr) (history : List HistoryLine) :
    Option JStr :=
  match previousHistoryId with
  | some prev => if prev.isEmpty then none else getNewestHistorySessionIdSince prev history
  | none => none

/-- Reconciliation step of runDefault (src/bin/cdx.js lines 274-285):
newId is the post-run snapshot id when that snapshot exists, its id is
truthy, and it is new (no prior snapshot, a different path, or a strictly
greater modification time); otherwise the history fallback runs. -/
def reconcileNewSessionId (previousHistoryId : Option JStr)
    (previousSession latestSession : Option SessionSnapshot)
    (history : List HistoryLine) : Option JStr :=
  match latestSession with
  | some ls =>
    if truthy ls.id &&
       (match previousSession with
        | none => true
        | some ps => ls.path != ps.path || decide (ps.mtimeMs < ls.mtimeMs)) then
      ls.id
    else historyFallback previousHistoryId history
  | none => historyFallback previousHistoryId history

/-- Outcome of the new-session flow of runDefault. -/
inductive NewSessionOutcome
  | toolFailure (exitCode : Int)
  | discoveryFailure
  | success (id : JStr)
deriving DecidableEq, Repr

/-- New-session flow of runDefault after the label prompt (src/bin/cdx.js
lines 269-291), as a transformer of the .cdx file content: a non-zero
child exit terminates the process inside runCodex (src/bin/cdx.js line
179) before any further step; otherwise reconciliation runs, and on its
failure the flow reports the error with the registry untouched, while on
success the new entry is appended. -/
def newSessionFlow (childExit : Int) (previousHistoryId : Option JStr)
    (previousSession latestSession : Option SessionSnapshot)
    (history : List HistoryLine) (label : JStr) (registry : Option JStr) :
    NewSessionOutcome × Option JStr :=
  if childExit ≠ 0 then (NewSessionOutcome.toolFailure childExit, registry)
  else
    match reconcileNewSessionId previousHistoryId previousSession latestSession history with
    | none => (NewSessionOutcome.discoveryFailure, registry)
    | some newId => (NewSessionOutcome.success newId,
        appendEntryFs { uuid := newId, label := label } registry)

/-- Example filesystem for the local-only resolution claim: a single
directory named home whose .cdx file holds one entry. -/
def localFs : List String → Option JStr :=
  fun d => if d = ["home"] then some ("u1\tdev\n".toList) else none

theorem dropWhile_dropWhile (p : Char → Bool) (l : JStr) :
    (l.dropWhile p).dropWhile p = l.dropWhile p := by
  induction l with
  | nil => rfl
  | cons c rest ih =>
    by_cases h : p c
    · simp [List.dropWhile_cons, h, ih]
    · simp [List.dropWhile_cons, h]

theorem dropWhile_eq_self_head (p : Char → Bool) (c : Char) (rest : JStr)
    (h : (c :: rest).dropWhile p = c :: rest) : p c = false := by
  by_contra hp
  have hpc : p c = true := by
    cases hpc : p c
    · exact absurd hpc hp
    · rfl
  rw [List.dropWhile_cons, hpc] at h
  simp only [if_true] at h
  have hlen : (rest.dropWhile p).length ≤ rest.length :=
    (List.dropWhile_sublist (l := rest) (p := p)).length_le
  rw [h] at hlen
  simp at hlen

theorem dropWhile_append_of_clean (p : Char → Bool) (x y : JStr)
    (hx : x.dropWhile p = x) (hx0 : x ≠ []) : (x ++ y).dropWhile p = x ++ y := by
  cases x with
  | nil => exact absurd rfl hx0
  | cons c rest =>
    have hc := dropWhile_eq_self_head p c rest hx
    simp [List.dropWhile_cons, hc]

theorem jsTrim_eq_self_parts (s : JStr) (h : jsTrim s = s) :
    s.dropWhile jsWhitespace = s ∧ s.reverse.dropWhile jsWhitespace = s.reverse := by
  unfold jsTrim at h
  have h1 : (s.dropWhile jsWhitespace).length ≤ s.length :=
    (List.dropWhile_sublist (l := s) (p := jsWhitespace)).length_le
  have h2 : ((s.dropWhile jsWhitespace).reverse.dropWhile jsWhitespace).length ≤
      (s.dropWhile jsWhitespace).length := by
    have := (List.dropWhile_sublist (l := (s.dropWhile jsWhitespace).reverse)
      (p := jsWhitespace)).length_le
    simpa using this
  have hlen : (((s.dropWhile jsWhitespace).reverse.dropWhile jsWhitespace).reverse).length =
      s.length := by rw [h]
  simp only [List.length_reverse] at hlen
  have e1 : (s.dropWhile jsWhitespace).length = s.length := by omega
  have hd : s.dropWhile jsWhitespace = s :=
    (List.dropWhile_sublist (l := s) (p := jsWhitespace)).eq_of_length e1
  refine ⟨hd, ?_⟩
  rw [hd] at h
  have e2 : (s.reverse.dropWhile jsWhitespace).length = s.reverse.length := by
    have := congrArg List.length h
    simp only [List.length_reverse] at this ⊢
    omega
  exact (List.dropWhile_sublist (l := s.reverse) (p := jsWhitespace)).eq_of_length e2

theorem jsTrim_of_clean_parts (s : JStr)
    (h1 : s.dropWhile jsWhitespace = s) (h2 : s.reverse.dropWhile jsWhitespace = s.reverse) :
    jsTrim s = s := by
  unfold jsTrim
  rw [h1, h2, List.reverse_reverse]

theorem jsTrim_sandwich (a b : JStr) (m : Char)
    (ha : jsTrim a = a) (ha0 : a ≠ []) (hb : jsTrim b = b) (hb0 : b ≠ []) :
    jsTrim (a ++ m :: b) = a ++ m :: b := by
  obtain ⟨ha1, _⟩ := jsTrim_eq_self_parts a ha
  obtain ⟨_, hb2⟩ := jsTrim_eq_self_parts b hb
  apply jsTrim_of_clean_parts
  · exact dropWhile_append_of_clean _ _ _ ha1 ha0
  · rw [show a ++ m :: b = a ++ [m] ++ b by simp, List.reverse_append, List.reverse_append]
    have hrb0 : b.reverse ≠ [] := by
      intro hc
      exact hb0 (by simpa using congrArg List.reverse hc)
    exact dropWhile_append_of_clean _ _ _ hb2 hrb0

theorem jsTrim_reverse_clean (l : JStr) (h : l.dropWhile jsWhitespace = l) :
    ((l.reverse.dropWhile jsWhitespace).reverse).dropWhile jsWhitespace =
      (l.reverse.dropWhile jsWhitespace).reverse := by
  cases l with
  | nil => rfl
  | cons c rest =>
    have hc := dropWhile_eq_self_head jsWhitespace c rest h
    have hstep : (c :: rest).reverse.dropWhile jsWhitespace =
        rest.reverse.dropWhile jsWhitespace ++ [c] := by
      rw [List.reverse_cons, List.dropWhile_append]
      by_cases he : (rest.reverse.dropWhile jsWhitespace).isEmpty
      · have hnil : rest.reverse.dropWhile jsWhitespace = [] := by
          simpa using he
        rw [if_pos he, hnil]
        simp [List.dropWhile_cons, hc]
      · simp [he]
    rw [hstep, List.reverse_append]
    simp [List.dropWhile_cons, hc]

theorem jsTrim_jsTrim (s : JStr) : jsTrim (jsTrim s) = jsTrim s := by
  have hd : (s.dropWhile jsWhitespace).dropWhile jsWhitespace = s.dropWhile jsWhitespace :=
    dropWhile_dropWhile jsWhitespace s
  have ht : (jsTrim s).dropWhile jsWhitespace = jsTrim s :=
    jsTrim_reverse_clean (s.dropWhile jsWhitespace) hd
  show jsTrim (jsTrim s) = jsTrim s
  unfold jsTrim
  unfold jsTrim at ht
  rw [ht, List.reverse_reverse, dropWhile_dropWhile]

theorem tnr_not_mem_collapse (b : Bool) (l : JStr) (c : Char)
    (hc : c ∈ collapseTnr b l) : tnr c = false := by
  induction l generalizing b with
  | nil => simp [collapseTnr] at hc
  | cons d rest ih =>
    unfold collapseTnr at hc
    by_cases hd : tnr d
    · by_cases hb : b
      · rw [if_pos hd, if_pos hb] at hc
        exact ih true hc
      · rw [if_pos hd, if_neg hb] at hc
        cases hc with
        | head => rfl
        | tail _ hm => exact ih true hm
    · rw [if_neg hd] at hc
      cases hc with
      | head => simpa using hd
      | tail _ hm => exact ih false hm

theorem collapse_of_clean (b : Bool) (l : JStr) (h : ∀ c ∈ l, tnr c = false) :
    collapseTnr b l = l := by
  induction l generalizing b with
  | nil => rfl
  | cons d rest ih =>
    have hd : tnr d = false := h d (List.mem_cons_self d rest)
    unfold collapseTnr
    rw [if_neg (by simp [hd])]
    rw [ih false (fun c hc => h c (List.mem_cons_of_mem d hc))]

theorem mem_of_mem_jsTrim (c : Char) (l : JStr) (h : c ∈ jsTrim l) : c ∈ l := by
  unfold jsTrim at h
  rw [List.mem_reverse] at h
  have h2 := (List.dropWhile_sublist
    (l := (l.dropWhile jsWhitespace).reverse) (p := jsWhitespace)).subset h
  rw [List.mem_reverse] at h2
  exact (List.dropWhile_sublist (l := l) (p := jsWhitespace)).subset h2

/-- C9: sanitizeLabel is idempotent — collapsing runs of tab, newline and
carriage return to single spaces and then trimming, applied to an
already-sanitized label, is a no-op. -/
theorem sanitizeLabel_idempotent (s : JStr) :
    sanitizeLabel (sanitizeLabel s) = sanitizeLabel s := by
  unfold sanitizeLabel
  rw [collapse_of_clean false (jsTrim (collapseTnr false s))
    (fun c hc => tnr_not_mem_collapse false s c (mem_of_mem_jsTrim c _ hc))]
  exact jsTrim_jsTrim _

theorem jsSplitNl_append (l rest : JStr) (h : '\n' ∉ l) :
    jsSplitNl (l ++ '\n' :: rest) = l :: jsSplitNl rest := by
  induction l with
  | nil => simp [jsSplitNl]
  | cons c l2 ih =>
    have hc : c ≠ '\n' := fun hc => h (hc ▸ List.mem_cons_self c l2)
    have hm : '\n' ∉ l2 := fun hm => h (List.mem_cons_of_mem c hm)
    show jsSplitNl (c :: (l2 ++ '\n' :: rest)) = (c :: l2) :: jsSplitNl rest
    simp only [jsSplitNl]
    rw [if_neg hc, ih hm]

theorem jsSplitNl_no_nl (l : JStr) (h : '\n' ∉ l) : jsSplitNl l = [l] := by
  induction l with
  | nil => rfl
  | cons c l2 ih =>
    have hc : c ≠ '\n' := fun hc => h (hc ▸ List.mem_cons_self c l2)
    have hm : '\n' ∉ l2 := fun hm => h (List.mem_cons_of_mem c hm)
    simp only [jsSplitNl]
    rw [if_neg hc, ih hm]

theorem filterChain_eq_filterMap (lines : List JStr) :
    (((lines.map jsTrim).filter (fun l => !l.isEmpty)).filterMap parseLine) =
      lines.filterMap lineToEntry := by
  induction lines with
  | nil => rfl
  | cons l rest ih =>
    by_cases he : (jsTrim l).isEmpty
    · simp [List.filter_cons, he, lineToEntry, ih]
    · cases hp : parseLine (jsTrim l) with
      | none => simp [List.filter_cons, he, lineToEntry, hp, List.filterMap_cons, ih]
      | some e => simp [List.filter_cons, he, lineToEntry, hp, List.filterMap_cons, ih]

theorem loadEntriesText_eq_filterMap (content : JStr) :
    loadEntriesText content = (jsSplitNl content).filterMap lineToEntry :=
  filterChain_eq_filterMap (jsSplitNl content)

theorem jsSplitNl_intercalate (lines : List JStr) (h0 : lines ≠ [])
    (h : ∀ l ∈ lines, '\n' ∉ l) :
    jsSplitNl (List.intercalate ['\n'] lines) = lines := by
  induction lines with
  | nil => exact absurd rfl h0
  | cons l rest ih =>
    cases rest with
    | nil =>
      have hsingle : List.intercalate ['\n'] [l] = l := by simp [List.intercalate]
      rw [hsingle]
      exact jsSplitNl_no_nl l (h l (List.mem_cons_self l []))
    | cons m rest2 =>
      have hstep : List.intercalate ['\n'] (l :: m :: rest2) =
          l ++ '\n' :: List.intercalate ['\n'] (m :: rest2) := by
        simp [List.intercalate, List.intersperse_cons_cons]
      rw [hstep, jsSplitNl_append l _ (h l (List.mem_cons_self l (m :: rest2)))]
      rw [ih (by simp) (fun x hx => h x (List.mem_cons_of_mem l hx))]

/-- C5: malformed-line tolerance of parse — for every text assembled from
lines (none of which contains a newline), loadEntries raises no error
(it is a total function) and returns exactly the per-line valid entries,
in their original relative order, every malformed or empty line being
silently dropped. -/
theorem parseMalformedTolerance (lines : List JStr) (h0 : lines ≠ [])
    (h : ∀ l ∈ lines, '\n' ∉ l) :
    loadEntriesText (List.intercalate ['\n'] lines) = lines.filterMap lineToEntry := by
  rw [loadEntriesText_eq_filterMap, jsSplitNl_intercalate lines h0 h]

/-- Sample input for the malformed-line tolerance witness: one valid line,
a line without a tab, a line with an empty id, a line with an empty label
and a whitespace-only line. -/
def sampleLines : List JStr :=
  ["a\tb".toList, "noTab".toList, "\tx".toList, "y\t".toList, "  ".toList]

theorem parseMalformedTolerance_witness :
    loadEntriesText (List.intercalate ['\n'] sampleLines) = sampleLines.filterMap lineToEntry ∧
    sampleLines.filterMap lineToEntry = [⟨['a'], ['b']⟩] :=
  ⟨parseMalformedTolerance sampleLines (by decide) (by decide), by decide⟩

/-- C4 counterexample: the entry with id a and label SPACE b has both
fields free of tabs and newlines, yet serializing and reparsing trims the
leading space of the label, so the round trip is not the identity. -/
theorem codecRoundTrip_counterexample :
    loadEntriesText (writeEntriesText [⟨['a'], [' ', 'b']⟩]) ≠ [⟨['a'], [' ', 'b']⟩] := by
  decide

theorem indexOfTab_append (u v : JStr) (hu : ∀ c ∈ u, c ≠ '\t') :
    indexOfTab (u ++ '\t' :: v) = some u.length := by
  induction u with
  | nil => simp [indexOfTab]
  | cons c rest ih =>
    have hc : c ≠ '\t' := hu c (List.mem_cons_self c rest)
    simp only [List.cons_append, indexOfTab, List.append_eq]
    rw [if_neg hc, ih (fun d hd => hu d (List.mem_cons_of_mem c hd))]
    simp

theorem parseLine_entryLine (u l : JStr) (hu : goodField u) (hl : goodField l) :
    parseLine (u ++ '\t' :: l) = some ⟨u, l⟩ := by
  obtain ⟨hu0, hu1, hu2⟩ := hu
  obtain ⟨hl0, hl1, hl2⟩ := hl
  unfold parseLine
  rw [indexOfTab_append u l (fun c hc => (hu1 c hc).1)]
  have htake : (u ++ '\t' :: l).take u.length = u := List.take_left u ('\t' :: l)
  have hdrop : (u ++ '\t' :: l).drop (u.length + 1) = l := by
    have hsplit : u ++ '\t' :: l = (u ++ ['\t']) ++ l := by simp
    have hlen : (u ++ ['\t']).length = u.length + 1 := by simp
    rw [hsplit, ← hlen]
    exact List.drop_left (u ++ ['\t']) l
  simp only [htake, hdrop, hu2, hl2]
  rw [if_neg (by simp [hu0, hl0])]

theorem jsTrim_entryLine (u l : JStr) (hu : goodField u) (hl : goodField l) :
    jsTrim (u ++ '\t' :: l) = u ++ '\t' :: l :=
  jsTrim_sandwich u l '\t' hu.2.2 hu.1 hl.2.2 hl.1

theorem lineToEntry_entryLine (u l : JStr) (hu : goodField u) (hl : goodField l) :
    lineToEntry (u ++ '\t' :: l) = some ⟨u, l⟩ := by
  unfold lineToEntry
  rw [jsTrim_entryLine u l hu hl]
  rw [if_neg (by cases u with | nil => exact absurd rfl hu.1 | cons a t => simp)]
  exact parseLine_entryLine u l hu hl

theorem nl_not_mem_entryLine (u l : JStr) (hu : goodField u) (hl : goodField l) :
    '\n' ∉ u ++ '\t' :: l := by
  intro hmem
  rcases List.mem_append.mp hmem with hin | hin
  · exact (hu.2.1 '\n' hin).2 rfl
  · rcases List.mem_cons.mp hin with h1 | h2
    · simp at h1
    · exact (hl.2.1 '\n' h2).2 rfl

theorem writeEntriesText_cons_cons (e f : Entry) (rest : List Entry) :
    writeEntriesText (e :: f :: rest) = entryLine e ++ '\n' :: writeEntriesText (f :: rest) := by
  simp [writeEntriesText, List.intercalate, List.intersperse_cons_cons]

theorem writeEntriesText_singleton (e : Entry) :
    writeEntriesText [e] = entryLine e ++ '\n' :: [] := by
  simp [writeEntriesText, List.intercalate]

/-- C4 amended: for every sequence of entries whose ids and labels are
nonempty, free of tab and newline characters, and unchanged by whitespace
trimming, parsing the serialization yields the same sequence with order
preserved. -/
theorem codecRoundTrip (entries : List Entry)
    (h : ∀ e ∈ entries, goodField e.uuid ∧ goodField e.label) :
    loadEntriesText (writeEntriesText entries) = entries := by
  induction entries with
  | nil => decide
  | cons e rest ih =>
    obtain ⟨hu, hl⟩ := h e (List.mem_cons_self e rest)
    have hline : entryLine e = e.uuid ++ '\t' :: e.label := rfl
    cases rest with
    | nil =>
      rw [writeEntriesText_singleton, loadEntriesText_eq_filterMap]
      rw [jsSplitNl_append _ _ (hline ▸ nl_not_mem_entryLine e.uuid e.label hu hl)]
      simp only [List.filterMap_cons]
      rw [hline, lineToEntry_entryLine e.uuid e.label hu hl]
      rfl
    | cons f rest2 =>
      rw [writeEntriesText_cons_cons, loadEntriesText_eq_filterMap]
      rw [jsSplitNl_append _ _ (hline ▸ nl_not_mem_entryLine e.uuid e.label hu hl)]
      simp only [List.filterMap_cons]
      rw [hline, lineToEntry_entryLine e.uuid e.label hu hl]
      rw [← loadEntriesText_eq_filterMap, ih (fun x hx => h x (List.mem_cons_of_mem e hx))]

theorem codecRoundTrip_witness :
    goodField ['u', '1'] ∧ goodField ['d', 'e', 'v'] ∧
    loadEntriesText (writeEntriesText [⟨['u', '1'], ['d', 'e', 'v']⟩]) =
      [⟨['u', '1'], ['d', 'e', 'v']⟩] :=
  ⟨by decide, by decide, codecRoundTrip [⟨['u', '1'], ['d', 'e', 'v']⟩] (by decide)⟩

theorem findCdxFile_of_hasCdx (hasCdx : List String → Bool) (dir : List String)
    (h : hasCdx dir = true) : findCdxFile hasCdx dir = some dir := by
  cases dir with
  | nil => simp [findCdxFile, h]
  | cons c parent => simp [findCdxFile, h]

theorem findCdxFile_some_spec (hasCdx : List String → Bool) :
    ∀ dir d, findCdxFile hasCdx dir = some d →
      hasCdx d = true ∧ (∃ t, t ++ d = dir) ∧
      ∀ e, (∃ t2, t2 ++ e = dir) → d.length < e.length → hasCdx e = false
  | [], d, hd => by
    simp only [findCdxFile] at hd
    cases hh : hasCdx [] with
    | true =>
      rw [if_pos hh] at hd
      injection hd with hd2
      subst hd2
      refine ⟨hh, ⟨[], rfl⟩, ?_⟩
      rintro e ⟨t2, ht2⟩ hlen
      have he : e = [] := by cases t2 <;> simp_all
      subst he
      exact absurd hlen (by simp)
    | false =>
      rw [if_neg (by simp [hh])] at hd
      exact absurd hd (by simp)
  | c :: parent, d, hd => by
    simp only [findCdxFile] at hd
    cases hh : hasCdx (c :: parent) with
    | true =>
      rw [if_pos hh] at hd
      injection hd with hd2
      subst hd2
      refine ⟨hh, ⟨[], rfl⟩, ?_⟩
      rintro e ⟨t2, ht2⟩ hlen
      have he : e.length ≤ (c :: parent).length := by
        rw [← ht2]; simp
      omega
    | false =>
      rw [if_neg (by simp [hh])] at hd
      obtain ⟨h1, ⟨t, ht⟩, h3⟩ := findCdxFile_some_spec hasCdx parent d hd
      refine ⟨h1, ⟨c :: t, by rw [← ht]; rfl⟩, ?_⟩
      rintro e ⟨t2, ht2⟩ hlen
      cases t2 with
      | nil =>
        simp only [List.nil_append] at ht2
        subst ht2
        exact hh
      | cons c2 t2r =>
        injection ht2 with hheq ht2r
        exact h3 e ⟨t2r, ht2r⟩ hlen

theorem findCdxFile_none_iff (hasCdx : List String → Bool) :
    ∀ dir, (findCdxFile hasCdx dir = none ↔ ∀ e, (∃ t, t ++ e = dir) → hasCdx e = false)
  | [] => by
    simp only [findCdxFile]
    cases hh : hasCdx [] with
    | true =>
      rw [if_pos rfl]
      constructor
      · intro hc; exact absurd hc (by simp)
      · intro hall
        have := hall [] ⟨[], rfl⟩
        rw [this] at hh
        cases hh
    | false =>
      rw [if_neg (by simp)]
      constructor
      · rintro _ e ⟨t, ht⟩
        have he : e = [] := by
          cases t <;> simp_all
        rw [he]; exact hh
      · intro _; rfl
  | c :: parent => by
    simp only [findCdxFile]
    cases hh : hasCdx (c :: parent) with
    | true =>
      rw [if_pos rfl]
      constructor
      · intro hc; exact absurd hc (by simp)
      · intro hall
        have := hall (c :: parent) ⟨[], rfl⟩
        rw [this] at hh
        cases hh
    | false =>
      rw [if_neg (by simp)]
      rw [findCdxFile_none_iff hasCdx parent]
      constructor
      · rintro hall e ⟨t2, ht2⟩
        cases t2 with
        | nil =>
          simp only [List.nil_append] at ht2
          rw [ht2]; exact hh
        | cons c2 t2r =>
          injection ht2 with hheq ht2r
          exact hall e ⟨t2r, ht2r⟩
      · rintro hall e ⟨t2, ht2⟩
        exact hall e ⟨c :: t2, by rw [← ht2]; rfl⟩

/-- C7: directory walk-up — findCdxFile returns the current directory when
it holds a .cdx file; any directory it returns is an ancestor-or-self of
the start that holds a .cdx file and is the nearest such one (every
strictly deeper ancestor-or-self lacks one, so a registry at a project
root governs all subdirectories); and the search returns not-found
exactly when no ancestor-or-self, up to the filesystem root, holds a
.cdx file. -/
theorem findCdxFile_walkup (hasCdx : List String → Bool) (dir : List String) :
    (hasCdx dir = true → findCdxFile hasCdx dir = some dir) ∧
    (∀ d, findCdxFile hasCdx dir = some d →
      hasCdx d = true ∧ (∃ t, t ++ d = dir) ∧
      ∀ e, (∃ t2, t2 ++ e = dir) → d.length < e.length → hasCdx e = false) ∧
    (findCdxFile hasCdx dir = none ↔ ∀ e, (∃ t, t ++ e = dir) → hasCdx e = false) :=
  ⟨findCdxFile_of_hasCdx hasCdx dir, findCdxFile_some_spec hasCdx dir,
    findCdxFile_none_iff hasCdx dir⟩

theorem findCdxFile_walkup_witness :
    findCdxFile (fun d => d == ["A"]) ["C", "B", "A"] = some ["A"] ∧
    (fun d : List String => d == ["A"]) ["B", "A"] = false :=
  ⟨by decide,
    ((findCdxFile_walkup (fun d => d == ["A"]) ["C", "B", "A"]).2.1 ["A"]
      (by decide)).2.2 ["B", "A"] ⟨["C"], rfl⟩ (by decide)⟩

/-- C6 evaluation: with the here flag set and a .cdx file present in the
starting directory (holding one well-formed entry), runDefault resolves
found to null and loads zero entries — the present local registry is
neither found nor loaded, contrary to the local-only contract. -/
theorem hereResolutionIgnoresPresentRegistry :
    (localFs ["home"]).isSome = true ∧
    loadEntriesText ("u1\tdev\n".toList) = [⟨"u1".toList, "dev".toList⟩] ∧
    runDefaultResolve true localFs ["home"] = (none, []) :=
  ⟨rfl, by decide, rfl⟩

/-- C8: removal-to-empty deletes the backing file — when filtering out the
selected uuid leaves no entries (in particular for a one-entry registry
whose single entry is removed) the backing file is deleted rather than
written empty; a non-empty remainder is rewritten wholesale. -/
theorem removalToEmptyDeletesFile (entries : List Entry) (selectedUuid : JStr)
    (old : Option JStr) :
    (entries.filter (fun e => e.uuid != selectedUuid) = [] →
      runRemoveWrite entries selectedUuid old = none) ∧
    (∀ e : Entry, runRemoveWrite [e] e.uuid old = none) ∧
    (entries.filter (fun e => e.uuid != selectedUuid) ≠ [] →
      runRemoveWrite entries selectedUuid old =
        some (writeEntriesText (entries.filter (fun e => e.uuid != selectedUuid)))) := by
  refine ⟨?_, ?_, ?_⟩
  · intro h
    unfold runRemoveWrite writeEntriesFs
    rw [h]
    rfl
  · intro e
    unfold runRemoveWrite writeEntriesFs
    simp [List.filter_cons]
  · intro h
    unfold runRemoveWrite writeEntriesFs
    rw [if_neg (by simpa using h)]

theorem removalToEmptyDeletesFile_witness :
    ([⟨['a'], ['b']⟩] : List Entry).filter (fun e => e.uuid != ['a']) = [] ∧
    runRemoveWrite [⟨['a'], ['b']⟩] ['a'] (some ("a\tb\n".toList)) = none :=
  ⟨by decide,
    (removalToEmptyDeletesFile [⟨['a'], ['b']⟩] ['a'] (some ("a\tb\n".toList))).1 (by decide)⟩

/-- C10: loading a missing registry is not an error — a null file path, or
a path whose file does not exist, yields the empty entry sequence, exactly
as a zero-entry registry would. -/
theorem loadEntriesMissingFile (cdxFile : List String → Option JStr) (p : List String)
    (h : cdxFile p = none) :
    loadEntries cdxFile none = [] ∧ loadEntries cdxFile (some p) = [] := by
  exact ⟨rfl, by simp [loadEntries, h]⟩

theorem loadEntriesMissingFile_witness :
    loadEntries (fun _ => none) none = [] ∧ loadEntries (fun _ => none) (some []) = [] :=
  loadEntriesMissingFile (fun _ => none) [] rfl

theorem extractIdFromFilename_ne_nil (p s : JStr)
    (h : extractIdFromFilename p = some s) : s ≠ [] := by
  unfold extractIdFromFilename at h
  by_cases hc : 42 ≤ p.length ∧ (p.drop (p.length - 6)).map lcChar = ".jsonl".toList ∧
      uuidShape ((p.drop (p.length - 42)).take 36)
  · rw [if_pos hc] at h
    injection h with h2
    subst h2
    intro hnil
    have hu := hc.2.2
    rw [hnil] at hu
    simp [uuidShape] at hu
  · rw [if_neg hc] at h
    exact absurd h (by simp)

theorem readSessionIdFromFile_ne_nil (f : SessionFile) (s : JStr)
    (h : readSessionIdFromFile f = some s) : s ≠ [] := by
  cases hm : f.metaId with
  | none =>
    unfold readSessionIdFromFile at h
    simp only [hm] at h
    exact extractIdFromFilename_ne_nil f.path s h
  | some m =>
    unfold readSessionIdFromFile at h
    simp only [hm] at h
    by_cases he : m.isEmpty
    · rw [if_pos he] at h
      exact extractIdFromFilename_ne_nil f.path s h
    · rw [if_neg he] at h
      injection h with h2
      subst h2
      simpa using he

theorem getLatestSessionSnapshot_id_ne_nil (files : List SessionFile) (a : SessionSnapshot)
    (i : JStr) (h : getLatestSessionSnapshot files = some a) (hid : a.id = some i) :
    i ≠ [] := by
  unfold getLatestSessionSnapshot at h
  cases hl : latestFile files with
  | none =>
    rw [hl] at h
    exact absurd h (by simp)
  | some f =>
    rw [hl] at h
    injection h with h2
    subst h2
    exact readSessionIdFromFile_ne_nil f i hid

theorem lastIdScan_ne_nil (lines : List HistoryLine) (s : JStr)
    (h : lastIdScan lines = some s) : s ≠ [] := by
  induction lines with
  | nil => exact absurd h (by simp [lastIdScan])
  | cons line rest ih =>
    cases line with
    | none =>
      simp only [lastIdScan] at h
      exact ih h
    | some m =>
      simp only [lastIdScan] at h
      by_cases he : m.isEmpty
      · rw [if_pos he] at h
        exact ih h
      · rw [if_neg he] at h
        injection h with h2
        subst h2
        simpa using he

theorem getLastHistorySessionId_ne_nil (history : List HistoryLine) (s : JStr)
    (h : getLastHistorySessionId history = some s) : s ≠ [] :=
  lastIdScan_ne_nil history.reverse s h

/-- C1: reconciliation primary path — whenever the post-run discovery
snapshot exists (as computed by getLatestSessionSnapshot on the session
files) and carries a non-null id, and there is no prior snapshot, or the
paths differ, or the post-run timestamp is strictly greater, then
reconciliation returns that id for every possible history log, hence
without consulting it. -/
theorem reconcilePrimaryPath (previousHistoryId : Option JStr)
    (previousSession : Option SessionSnapshot) (afterFiles : List SessionFile)
    (history : List HistoryLine) (a : SessionSnapshot) (i : JStr)
    (hafter : getLatestSessionSnapshot afterFiles = some a)
    (hid : a.id = some i)
    (hnew : previousSession = none ∨
      ∃ ps, previousSession = some ps ∧ (a.path ≠ ps.path ∨ ps.mtimeMs < a.mtimeMs)) :
    reconcileNewSessionId previousHistoryId previousSession (some a) history = some i := by
  have hne : i ≠ [] := getLatestSessionSnapshot_id_ne_nil afterFiles a i hafter hid
  have htr : truthy (some i) = true := by
    cases i with
    | nil => exact absurd rfl hne
    | cons c cs => rfl
  rcases hnew with hps | ⟨ps, hps, hcond⟩
  · subst hps
    simp [reconcileNewSessionId, htr, hid]
  · subst hps
    have hb : (a.path != ps.path || decide (ps.mtimeMs < a.mtimeMs)) = true := by
      rcases hcond with hpath | hmt
      · simp [bne_iff_ne, hpath]
      · simp [hmt]
    simp [reconcileNewSessionId, htr, hb, hid]

theorem reconcilePrimaryPath_witness :
    getLatestSessionSnapshot [⟨"/s/f2.jsonl".toList, 5, some ("abc-123".toList)⟩] =
      some ⟨some ("abc-123".toList), 5, "/s/f2.jsonl".toList⟩ ∧
    reconcileNewSessionId (some ("h0".toList))
      (some ⟨some ("zzz".toList), 3, "/s/f1.jsonl".toList⟩)
      (some ⟨some ("abc-123".toList), 5, "/s/f2.jsonl".toList⟩)
      [some ("h0".toList), some ("h9".toList)] = some ("abc-123".toList) :=
  ⟨by decide,
    reconcilePrimaryPath (some ("h0".toList))
      (some ⟨some ("zzz".toList), 3, "/s/f1.jsonl".toList⟩)
      [⟨"/s/f2.jsonl".toList, 5, some ("abc-123".toList)⟩]
      [some ("h0".toList), some ("h9".toList)]
      ⟨some ("abc-123".toList), 5, "/s/f2.jsonl".toList⟩ ("abc-123".toList)
      (by decide) rfl
      (Or.inr ⟨⟨some ("zzz".toList), 3, "/s/f1.jsonl".toList⟩, rfl, Or.inl (by decide)⟩)⟩

/-- C2: reconciliation fallback path — when the pre-run history id was
captured (non-null, as computed by getLastHistorySessionId) and the
post-run snapshot signal is inconclusive (no snapshot, a null id, or the
same path as the prior snapshot with a timestamp not strictly greater,
equal timestamps included), reconciliation returns the backward scan of
the history log for the first session_id differing from the prior
history id. -/
theorem reconcileFallbackPath (beforeHistory history : List HistoryLine) (p : JStr)
    (previousSession latestSession : Option SessionSnapshot)
    (hprev : getLastHistorySessionId beforeHistory = some p)
    (hinc : latestSession = none ∨
      ∃ ls, latestSession = some ls ∧
        (ls.id = none ∨
         ∃ ps, previousSession = some ps ∧ ls.path = ps.path ∧ ¬ps.mtimeMs < ls.mtimeMs)) :
    reconcileNewSessionId (some p) previousSession latestSession history =
      getNewestHistorySessionIdSince p history := by
  have hpne : p ≠ [] := getLastHistorySessionId_ne_nil beforeHistory p hprev
  have hfb : historyFallback (some p) history = getNewestHistorySessionIdSince p history := by
    simp only [historyFallback]
    rw [if_neg (by simpa using hpne)]
  rcases hinc with hnone | ⟨ls, hls, hcase⟩
  · subst hnone
    exact hfb
  · subst hls
    rcases hcase with hidn | ⟨ps, hps, hpath, hmt⟩
    · simp only [reconcileNewSessionId, hidn, truthy, Bool.false_and, Bool.false_eq_true,
        if_false]
      exact hfb
    · subst hps
      have hb : (ls.path != ps.path || decide (ps.mtimeMs < ls.mtimeMs)) = false := by
        simp [bne_iff_ne, hpath, hmt]
      simp only [reconcileNewSessionId, hb, Bool.and_false, Bool.false_eq_true, if_false]
      exact hfb

theorem reconcileFallbackPath_witness :
    reconcileNewSessionId (some ("h1".toList))
      (some ⟨some ("x".toList), 3, "/s/f1.jsonl".toList⟩)
      (some ⟨some ("x".toList), 3, "/s/f1.jsonl".toList⟩)
      [some ("h1".toList), some ("h2".toList)] =
      getNewestHistorySessionIdSince ("h1".toList)
        [some ("h1".toList), some ("h2".toList)] ∧
    getNewestHistorySessionIdSince ("h1".toList) [some ("h1".toList), some ("h2".toList)] =
      some ("h2".toList) :=
  ⟨reconcileFallbackPath [some ("h1".toList)] [some ("h1".toList), some ("h2".toList)]
      ("h1".toList) (some ⟨some ("x".toList), 3, "/s/f1.jsonl".toList⟩)
      (some ⟨some ("x".toList), 3, "/s/f1.jsonl".toList⟩)
      (by decide)
      (Or.inr ⟨⟨some ("x".toList), 3, "/s/f1.jsonl".toList⟩, rfl,
        Or.inr ⟨⟨some ("x".toList), 3, "/s/f1.jsonl".toList⟩, rfl, rfl, by decide⟩⟩),
    by decide⟩

/-- C3: new-session flow atomicity after the child has run — if the child
process exits non-zero or reconciliation yields no identifier, the flow
reports a failure outcome (never success) and the registry content is
left exactly unchanged; and with no prior snapshot, no post-run snapshot
and no prior history id, reconciliation yields none for every history, so
no identifier is ever fabricated. -/
theorem newSessionFlowAtomicity (childExit : Int) (previousHistoryId : Option JStr)
    (previousSession latestSession : Option SessionSnapshot)
    (history : List HistoryLine) (label : JStr) (registry : Option JStr)
    (h : childExit ≠ 0 ∨
      reconcileNewSessionId previousHistoryId previousSession latestSession history = none) :
    (newSessionFlow childExit previousHistoryId previousSession latestSession history label
        registry).2 = registry ∧
    (∀ i, (newSessionFlow childExit previousHistoryId previousSession latestSession history
        label registry).1 ≠ NewSessionOutcome.success i) ∧
    (∀ hist2 : List HistoryLine, reconcileNewSessionId none none none hist2 = none) := by
  by_cases hz : childExit = 0
  · have hrec : reconcileNewSessionId previousHistoryId previousSession latestSession
        history = none := by
      rcases h with h1 | h2
      · exact absurd hz h1
      · exact h2
    unfold newSessionFlow
    rw [if_neg (by simp [hz]), hrec]
    refine ⟨rfl, ?_, fun hist2 => rfl⟩
    intro i hcon
    simp at hcon
  · unfold newSessionFlow
    rw [if_pos hz]
    refine ⟨rfl, ?_, fun hist2 => rfl⟩
    intro i hcon
    simp at hcon

theorem newSessionFlowAtomicity_witness :
    reconcileNewSessionId none none none [] = none ∧
    (newSessionFlow 0 none none none [] ("dev".toList) (some ("a\tb\n".toList))).2 =
      some ("a\tb\n".toList) ∧
    (newSessionFlow 0 none none none [] ("dev".toList) (some ("a\tb\n".toList))).1 ≠
      NewSessionOutcome.success ("x".toList) :=
  ⟨rfl,
    (newSessionFlowAtomicity 0 none none none [] ("dev".toList) (some ("a\tb\n".toList))
      (Or.inr rfl)).1,
    (newSessionFlowAtomicity 0 none none none [] ("dev".toList) (some ("a\tb\n".toList))
      (Or.inr rfl)).2.1 ("x".toList)⟩
